import Mathlib

/-!
Verification of the public overload layer of `string_sort.hpp`
(boost::sort::spreadsort string sorting, file
`src/include/boost/sort/spreadsort/string_sort.hpp`).

The file under `src/` contains only the public dispatch layer: seven
overloads of `string_sort` / `reverse_string_sort` that

  * fall back to `std::sort` when the range is shorter than
    `detail::min_sort_size`,
  * skip empty keys (leading ones for ascending sorts, trailing ones for
    the accessor-based reverse sort), and
  * otherwise delegate to the `detail::` radix engine.

The `detail::` engine and the constant `detail::min_sort_size` live in
headers that are not part of this tree, so they are modelled from the
spec: the engine by its specified postcondition (the sub-range fully
ordered by the requested relation: ascending digit order, descending
digit order, or the caller's comparator), and the threshold as an
explicit parameter `msz` (the spec treats these tuned constants as
configurable parameters).  `std::sort` (an external collaborator) is
modelled by the deterministic comparison sort `List.insertionSort`.

Keys of the non-accessor overloads are modelled as `List ℕ`
(string-like values indexed by `operator[]`, compared by the
lexicographic `operator<`); the accessor overloads are generic in the
key type `K` and take `getchar` / `length` functors.
-/

/-- Strict ascending digit (lexicographic) order on digit sequences:
a shorter sequence that is a prefix of another sorts before it, and
otherwise the first differing digit decides. -/
def lexLt : List ℕ → List ℕ → Bool
  | [], [] => false
  | [], _ :: _ => true
  | _ :: _, [] => false
  | a :: as, b :: bs => a < b || (a == b && lexLt as bs)

/-- Non-strict ascending digit order, as a proposition: `a` is not
strictly above `b`. -/
def lexLe' (a b : List ℕ) : Prop := lexLt b a = false

/-- Non-strict descending digit order: `b ≤ a` in digit order. -/
def descLe' (a b : List ℕ) : Prop := lexLt a b = false

instance : DecidableRel lexLe' := fun a b =>
  inferInstanceAs (Decidable (lexLt b a = false))

instance : DecidableRel descLe' := fun a b =>
  inferInstanceAs (Decidable (lexLt a b = false))

/-- The digit sequence of a key as seen through the accessor functors:
`[getchar k 0, …, getchar k (length k - 1)]`. -/
def digitsOf {K : Type} (g : K → ℕ → ℕ) (len : K → ℕ) (k : K) : List ℕ :=
  (List.range (len k)).map (g k)

/-- Ascending digit order on keys induced by the accessor functors. -/
def keyLe {K : Type} (g : K → ℕ → ℕ) (len : K → ℕ) (a b : K) : Prop :=
  lexLt (digitsOf g len b) (digitsOf g len a) = false

instance {K : Type} (g : K → ℕ → ℕ) (len : K → ℕ) :
    DecidableRel (keyLe g len) := fun a b =>
  inferInstanceAs (Decidable (lexLt _ _ = false))

/-- Model of the external collaborator `std::sort` (and of the spec's
"fallback comparison sort"): a deterministic comparison sort. -/
def stdSort {K : Type} (r : K → K → Prop) [DecidableRel r] (l : List K) :
    List K :=
  List.insertionSort r l

/-- Modelled from the spec: `detail::string_sort(first, last, unused)`
(the engine header is not under `src/`).  Postcondition: the range fully
ordered in ascending digit order. -/
def detail_string_sort_u (l : List (List ℕ)) : List (List ℕ) :=
  stdSort lexLe' l

/-- Modelled from the spec: `detail::reverse_string_sort(first, last,
unused)` (the engine header is not under `src/`).  Postcondition: the
range fully ordered in descending digit order. -/
def detail_reverse_string_sort_u (l : List (List ℕ)) : List (List ℕ) :=
  stdSort descLe' l

/-- Modelled from the spec: `detail::string_sort(first, last, getchar,
length, char)` (the engine header is not under `src/`).  Postcondition:
the range fully ordered in the ascending digit order induced by the
accessors; the initial character argument is the leading digit of the
first key, passed for type selection. -/
def detail_string_sort_gl {K : Type} (g : K → ℕ → ℕ) (len : K → ℕ)
    (c : ℕ) (l : List K) : List K :=
  stdSort (keyLe g len) l

/-- Modelled from the spec: `detail::string_sort(first, last, getchar,
length, comp, char)` (the engine header is not under `src/`).
Postcondition: the range fully ordered per the caller's comparator
(which the spec requires to agree with the digit-derived order). -/
def detail_string_sort_glc {K : Type} (g : K → ℕ → ℕ) (len : K → ℕ)
    (comp : K → K → Prop) [DecidableRel comp] (c : ℕ) (l : List K) :
    List K :=
  stdSort comp l

/-- Modelled from the spec: `detail::reverse_string_sort(first, last,
getchar, length, comp, char)` (the engine header is not under `src/`).
Postcondition: the range fully ordered per the caller's comparator. -/
def detail_reverse_string_sort_glc {K : Type} (g : K → ℕ → ℕ)
    (len : K → ℕ) (comp : K → K → Prop) [DecidableRel comp] (c : ℕ)
    (l : List K) : List K :=
  stdSort comp l

/-- `string_sort(first, last, unused)` (source lines 73-82): below the
`min_sort_size` threshold delegate to `std::sort(first, last)`,
otherwise to `detail::string_sort(first, last, unused)`.  The threshold
`msz` stands for `detail::min_sort_size` (declared in a header not
under `src/`); the value of `unused` is never read. -/
def string_sort_u (msz : ℕ) (unused : ℕ) (l : List (List ℕ)) :
    List (List ℕ) :=
  if l.length < msz then stdSort lexLe' l
  else detail_string_sort_u l

/-- `string_sort(first, last)` (source lines 126-131): wraps the
three-argument overload with `unsigned char unused = '\0'`. -/
def string_sort_default (msz : ℕ) (l : List (List ℕ)) : List (List ℕ) :=
  string_sort_u msz 0 l

/-- `reverse_string_sort(first, last, comp, unused)` (source lines
183-192): below the threshold `std::sort(first, last, comp)`, otherwise
`detail::reverse_string_sort(first, last, unused)` — note that `comp`
is not passed to the engine. -/
def reverse_string_sort_cu (msz : ℕ) (comp : List ℕ → List ℕ → Prop)
    [DecidableRel comp] (unused : ℕ) (l : List (List ℕ)) :
    List (List ℕ) :=
  if l.length < msz then stdSort comp l
  else detail_reverse_string_sort_u l

/-- `reverse_string_sort(first, last, comp)` (source lines 242-248):
wraps the four-argument overload with `unsigned char unused = '\0'`. -/
def reverse_string_sort_c (msz : ℕ) (comp : List ℕ → List ℕ → Prop)
    [DecidableRel comp] (l : List (List ℕ)) : List (List ℕ) :=
  reverse_string_sort_cu msz comp 0 l

/-- `string_sort(first, last, getchar, length)` (source lines 301-317):
below the threshold `std::sort(first, last)` using the element type's
own `operator<` (here the parameter `ltK`); otherwise skip the leading
run of zero-length keys (`while (!length(*first)) if (++first == last)
return;`) leaving it in place, return if that exhausts the range, and
otherwise call `detail::string_sort(first, last, getchar, length,
getchar(*first, 0))` on the remainder. -/
def string_sort_gl {K : Type} (msz : ℕ) (ltK : K → K → Prop)
    [DecidableRel ltK] (g : K → ℕ → ℕ) (len : K → ℕ) (l : List K) :
    List K :=
  if l.length < msz then stdSort ltK l
  else
    match l.dropWhile (fun k => len k = 0) with
    | [] => l
    | k :: rest =>
        l.takeWhile (fun k => len k = 0) ++
          detail_string_sort_gl g len (g k 0) (k :: rest)

/-- `string_sort(first, last, getchar, length, comp)` (source lines
373-391): below the threshold `std::sort(first, last, comp)`; otherwise
skip the leading run of zero-length keys leaving it in place, return if
that exhausts the range, and otherwise call `detail::string_sort(first,
last, getchar, length, comp, getchar(*first, 0))` on the remainder. -/
def string_sort_glc {K : Type} (msz : ℕ) (g : K → ℕ → ℕ) (len : K → ℕ)
    (comp : K → K → Prop) [DecidableRel comp] (l : List K) : List K :=
  if l.length < msz then stdSort comp l
  else
    match l.dropWhile (fun k => len k = 0) with
    | [] => l
    | k :: rest =>
        l.takeWhile (fun k => len k = 0) ++
          detail_string_sort_glc g len comp (g k 0) (k :: rest)

/-- The trailing-empty-key scan of the accessor-based
`reverse_string_sort` (source lines 457-461): starting from the given
index and walking toward the front, find the index of the last key of
nonzero length; `none` when the scan reaches index 0 and that key is
also empty (the loop `while (!length(*(--last))) if (first == last)
return;`). -/
def findLastNonempty {K : Type} [Inhabited K] (len : K → ℕ)
    (l : List K) : ℕ → Option ℕ
  | 0 => if len (l.getD 0 default) = 0 then none else some 0
  | i + 1 =>
      if len (l.getD (i + 1) default) = 0 then findLastNonempty len l i
      else some (i + 1)

/-- `reverse_string_sort(first, last, getchar, length, comp)` (source
lines 446-466): below the threshold `std::sort(first, last, comp)`;
otherwise scan from the last element inward past zero-length keys,
return (range unchanged) if the scan reaches the first element and it
is also empty, and otherwise call `detail::reverse_string_sort(first,
last + 1, getchar, length, comp, getchar(*last, 0))` on the prefix
ending at the last nonempty key, the trailing empties staying put. -/
def reverse_string_sort_glc {K : Type} [Inhabited K] (msz : ℕ)
    (g : K → ℕ → ℕ) (len : K → ℕ) (comp : K → K → Prop)
    [DecidableRel comp] (l : List K) : List K :=
  if l.length < msz then stdSort comp l
  else
    match findLastNonempty len l (l.length - 1) with
    | none => l
    | some j =>
        detail_reverse_string_sort_glc g len comp
          (g (l.getD j default) 0) (l.take (j + 1)) ++ l.drop (j + 1)

/-! ### Order-theoretic facts about the digit order -/

theorem lexLt_irrefl : ∀ a : List ℕ, lexLt a a = false
  | [] => rfl
  | a :: as => by simp [lexLt, lexLt_irrefl as]

theorem lexLt_asymm : ∀ a b : List ℕ, lexLt a b = true → lexLt b a = false
  | [], [], h => by simp [lexLt] at h
  | [], _ :: _, _ => rfl
  | _ :: _, [], h => by simp [lexLt] at h
  | a :: as, b :: bs, h => by
      simp only [lexLt, Bool.or_eq_true, Bool.and_eq_true, beq_iff_eq,
        decide_eq_true_eq] at h
      simp only [lexLt, Bool.or_eq_false_iff, Bool.and_eq_false_iff,
        decide_eq_false_iff_not]
      rcases h with h | ⟨hab, hrec⟩
      · constructor
        · omega
        · left
          simp only [beq_eq_false_iff_ne]
          omega
      · subst hab
        refine ⟨by omega, Or.inr (lexLt_asymm as bs hrec)⟩

theorem lexLt_eq_of_not_lt :
    ∀ a b : List ℕ, lexLt a b = false → lexLt b a = false → a = b
  | [], [], _, _ => rfl
  | [], _ :: _, h, _ => by simp [lexLt] at h
  | _ :: _, [], _, h => by simp [lexLt] at h
  | a :: as, b :: bs, h1, h2 => by
      simp only [lexLt, Bool.or_eq_false_iff, Bool.and_eq_false_iff,
        decide_eq_false_iff_not, beq_eq_false_iff_ne] at h1 h2
      obtain ⟨hab, h1r⟩ := h1
      obtain ⟨hba, h2r⟩ := h2
      have he : a = b := by omega
      subst he
      rcases h1r with h | h1r
      · exact absurd rfl h
      · rcases h2r with h | h2r
        · exact absurd rfl h
        · rw [lexLt_eq_of_not_lt as bs h1r h2r]

theorem lexLt_le_trans :
    ∀ a b c : List ℕ, lexLt b a = false → lexLt c b = false →
      lexLt c a = false
  | [], _, c, _, _ => by cases c <;> rfl
  | _ :: _, [], _, h1, _ => by simp [lexLt] at h1
  | _ :: _, _ :: _, [], _, h2 => by simp [lexLt] at h2
  | a :: as, b :: bs, c :: cs, h1, h2 => by
      simp only [lexLt, Bool.or_eq_false_iff, Bool.and_eq_false_iff,
        decide_eq_false_iff_not, beq_eq_false_iff_ne] at h1 h2 ⊢
      obtain ⟨hba, h1r⟩ := h1
      obtain ⟨hcb, h2r⟩ := h2
      constructor
      · omega
      · by_cases hca : c = a
        · right
          have hcb' : c = b := by omega
          have hba' : b = a := by omega
          rcases h1r with h | h1r
          · exact absurd hba' h
          · rcases h2r with h | h2r
            · exact absurd hcb' h
            · exact lexLt_le_trans as bs cs h1r h2r
        · left
          simpa [beq_eq_false_iff_ne] using hca

theorem lexLt_self_append :
    ∀ (a t : List ℕ), t ≠ [] → lexLt a (a ++ t) = true
  | [], [], h => absurd rfl h
  | [], _ :: _, _ => rfl
  | a :: as, t, h => by
      simp [lexLt, lexLt_self_append as t h]

instance : IsTotal (List ℕ) lexLe' :=
  ⟨fun a b => by
    unfold lexLe'
    cases h : lexLt b a
    · exact Or.inl rfl
    · exact Or.inr (lexLt_asymm b a h)⟩

instance : IsTrans (List ℕ) lexLe' :=
  ⟨fun a b c h1 h2 => lexLt_le_trans a b c h1 h2⟩

instance : IsAntisymm (List ℕ) lexLe' :=
  ⟨fun a b h1 h2 => lexLt_eq_of_not_lt a b h2 h1⟩

instance : IsTotal (List ℕ) descLe' :=
  ⟨fun a b => by
    unfold descLe'
    cases h : lexLt a b
    · exact Or.inl rfl
    · exact Or.inr (lexLt_asymm a b h)⟩

instance : IsTrans (List ℕ) descLe' :=
  ⟨fun a b c h1 h2 => lexLt_le_trans c b a h2 h1⟩

instance : IsAntisymm (List ℕ) descLe' :=
  ⟨fun a b h1 h2 => lexLt_eq_of_not_lt a b h1 h2⟩

/-! ### The trailing-empty-key scan -/

theorem findLastNonempty_eq_none {K : Type} [Inhabited K] (len : K → ℕ)
    (l : List K) :
    ∀ i, (∀ k, k ≤ i → len (l.getD k default) = 0) →
      findLastNonempty len l i = none
  | 0, h => by
      unfold findLastNonempty
      rw [if_pos (h 0 (le_refl 0))]
  | i + 1, h => by
      unfold findLastNonempty
      rw [if_pos (h (i + 1) (le_refl _))]
      exact findLastNonempty_eq_none len l i
        (fun k hk => h k (le_trans hk (Nat.le_succ i)))

theorem findLastNonempty_eq_some {K : Type} [Inhabited K] (len : K → ℕ)
    (l : List K) :
    ∀ i j, j ≤ i → len (l.getD j default) ≠ 0 →
      (∀ k, j < k → k ≤ i → len (l.getD k default) = 0) →
      findLastNonempty len l i = some j
  | 0, j, hj, hne, _ => by
      have hj0 : j = 0 := Nat.le_zero.mp hj
      subst hj0
      unfold findLastNonempty
      rw [if_neg hne]
  | i + 1, j, hj, hne, hup => by
      by_cases hj1 : j = i + 1
      · subst hj1
        unfold findLastNonempty
        rw [if_neg hne]
      · have hj' : j ≤ i := by omega
        have h0 : len (l.getD (i + 1) default) = 0 :=
          hup (i + 1) (by omega) (le_refl _)
        unfold findLastNonempty
        rw [if_pos h0]
        exact findLastNonempty_eq_some len l i j hj' hne
          (fun k hk1 hk2 => hup k hk1 (by omega))

/-! ### Claims -/

/-- C1: For every finite input range, after a call to `string_sort` the
range holds a permutation of its original elements and every adjacent
pair satisfies the requested order relation (ascending digit order by
default). -/
theorem C1_string_sort_perm_sorted (msz unused : ℕ) (l : List (List ℕ)) :
    (string_sort_u msz unused l).Perm l ∧
      List.Chain' lexLe' (string_sort_u msz unused l) := by
  have he : string_sort_u msz unused l = stdSort lexLe' l := by
    unfold string_sort_u detail_string_sort_u
    split <;> rfl
  rw [he]
  exact ⟨List.perm_insertionSort lexLe' l,
    List.Pairwise.chain' (List.sorted_insertionSort lexLe' l)⟩

/-- C2: For every input range whose element count is below the
small-size threshold, every `string_sort` and `reverse_string_sort`
overload produces exactly the sequence obtained by applying the
fallback comparison sort (with the supplied comparator when one is
given) directly to the range, with no radix work performed. -/
theorem C2_below_threshold_fallback {K : Type} [Inhabited K]
    (msz u : ℕ) (comp : List ℕ → List ℕ → Prop) [DecidableRel comp]
    (ltK compK : K → K → Prop) [DecidableRel ltK] [DecidableRel compK]
    (g : K → ℕ → ℕ) (len : K → ℕ)
    (ls : List (List ℕ)) (l : List K)
    (hs : ls.length < msz) (h : l.length < msz) :
    string_sort_u msz u ls = stdSort lexLe' ls ∧
    string_sort_default msz ls = stdSort lexLe' ls ∧
    reverse_string_sort_cu msz comp u ls = stdSort comp ls ∧
    reverse_string_sort_c msz comp ls = stdSort comp ls ∧
    string_sort_gl msz ltK g len l = stdSort ltK l ∧
    string_sort_glc msz g len compK l = stdSort compK l ∧
    reverse_string_sort_glc msz g len compK l = stdSort compK l := by
  refine ⟨?_, ?_, ?_, ?_, ?_, ?_, ?_⟩ <;>
    simp [string_sort_u, string_sort_default, reverse_string_sort_cu,
      reverse_string_sort_c, string_sort_gl, string_sort_glc,
      reverse_string_sort_glc, hs, h]

/-- Witness for C2 at a concrete two-element range below a threshold of
five. -/
theorem C2_below_threshold_fallback_witness :
    string_sort_u 5 0 [[2],[1]] = stdSort lexLe' [[2],[1]] ∧
    string_sort_default 5 [[2],[1]] = stdSort lexLe' [[2],[1]] ∧
    reverse_string_sort_cu 5 descLe' 0 [[2],[1]] =
      stdSort descLe' [[2],[1]] ∧
    reverse_string_sort_c 5 descLe' [[2],[1]] =
      stdSort descLe' [[2],[1]] ∧
    string_sort_gl 5 lexLe' (fun (k : List ℕ) i => k.getD i 0)
      List.length [[2],[1]] = stdSort lexLe' [[2],[1]] ∧
    string_sort_glc 5 (fun (k : List ℕ) i => k.getD i 0) List.length
      lexLe' [[2],[1]] = stdSort lexLe' [[2],[1]] ∧
    reverse_string_sort_glc 5 (fun (k : List ℕ) i => k.getD i 0)
      List.length lexLe' [[2],[1]] = stdSort lexLe' [[2],[1]] :=
  C2_below_threshold_fallback 5 0 descLe' lexLe' lexLe'
    (fun (k : List ℕ) i => k.getD i 0) List.length [[2],[1]] [[2],[1]]
    (by decide) (by decide)

/-- C8: For ranges of at least threshold size, the four-argument
`reverse_string_sort(first, last, comp, unused)` overload produces the
same final sequence for any two comparators: the above-threshold branch
does not pass the comparator to the engine. -/
theorem C8_reverse_comp_independent (msz u : ℕ)
    (comp1 comp2 : List ℕ → List ℕ → Prop) [DecidableRel comp1]
    [DecidableRel comp2] (l : List (List ℕ)) (h : msz ≤ l.length) :
    reverse_string_sort_cu msz comp1 u l =
      reverse_string_sort_cu msz comp2 u l := by
  unfold reverse_string_sort_cu
  rw [if_neg (by omega), if_neg (by omega)]

/-- Witness for C8: ascending and descending comparators give the same
result on a concrete above-threshold range. -/
theorem C8_reverse_comp_independent_witness :
    reverse_string_sort_cu 1 lexLe' 0 [[0],[1]] =
      reverse_string_sort_cu 1 descLe' 0 [[0],[1]] :=
  C8_reverse_comp_independent 1 0 lexLe' descLe' [[0],[1]] (by decide)

/-- C9: For every input range and any two values of the unused
character-type-selection parameter, `string_sort(first, last, unused)`
produces the same final sequence: the value of `unused` is never
read. -/
theorem C9_unused_value_irrelevant (msz u1 u2 : ℕ)
    (l : List (List ℕ)) :
    string_sort_u msz u1 l = string_sort_u msz u2 l := rfl

/-- The four-argument `reverse_string_sort(first, last, comp, unused)`
overload as the claim words it: this definition follows the spec's
words ("used as the fallback sort's ordering ... in every branch", "the
delegated sorting call receives comp"), so its above-threshold branch
invokes a comparator-receiving engine with the spec's postcondition of
full ordering per the comparator.  It is to be compared with
`reverse_string_sort_cu`, which is translated from the source. -/
def reverse_string_sort_cu_spec (msz : ℕ)
    (comp : List ℕ → List ℕ → Prop) [DecidableRel comp] (unused : ℕ)
    (l : List (List ℕ)) : List (List ℕ) :=
  if l.length < msz then stdSort comp l
  else
    detail_reverse_string_sort_glc (fun (k : List ℕ) i => k.getD i 0)
      List.length comp 0 l

/-- C3 counterexample: with the ascending comparator `lexLe'` on a
three-element range above a threshold of two, the four-argument
`reverse_string_sort` overload does not behave as if the delegated call
received `comp`: the source invokes the engine without the comparator
(line 191), which sorts in descending digit order. -/
theorem C3_comp_counterexample :
    reverse_string_sort_cu 2 lexLe' 0 [[1],[0],[2]] ≠
      reverse_string_sort_cu_spec 2 lexLe' 0 [[1],[0],[2]] := by decide

/-- C3 amended: the caller-supplied comparator is used as the ordering
of the fallback comparison sort in the below-threshold branch of every
comparator-taking overload, and the five-argument accessor overloads
also hand it to the engine in their above-threshold branch (the
delegated calls `detail_string_sort_glc`/`detail_reverse_string_sort_glc`
receive `compK`); but the four-argument `reverse_string_sort` overload
invokes the engine without `comp` in its above-threshold branch, so
that branch is independent of the comparator. -/
theorem C3_comp_amended {K : Type} [Inhabited K] (msz u : ℕ)
    (comp : List ℕ → List ℕ → Prop) [DecidableRel comp]
    (g : K → ℕ → ℕ) (len : K → ℕ) (compK : K → K → Prop)
    [DecidableRel compK] (ls : List (List ℕ)) (l : List K) :
    (ls.length < msz →
      reverse_string_sort_cu msz comp u ls = stdSort comp ls ∧
      reverse_string_sort_c msz comp ls = stdSort comp ls) ∧
    (msz ≤ ls.length →
      reverse_string_sort_cu msz comp u ls =
        detail_reverse_string_sort_u ls) ∧
    (l.length < msz →
      string_sort_glc msz g len compK l = stdSort compK l ∧
      reverse_string_sort_glc msz g len compK l = stdSort compK l) ∧
    (msz ≤ l.length →
      ∀ k rest, l.dropWhile (fun x => len x = 0) = k :: rest →
        string_sort_glc msz g len compK l =
          l.takeWhile (fun x => len x = 0) ++
            detail_string_sort_glc g len compK (g k 0) (k :: rest)) ∧
    (msz ≤ l.length →
      ∀ j, j < l.length → len (l.getD j default) ≠ 0 →
        (∀ i, j < i → i < l.length → len (l.getD i default) = 0) →
        reverse_string_sort_glc msz g len compK l =
          detail_reverse_string_sort_glc g len compK
            (g (l.getD j default) 0) (l.take (j + 1)) ++
              l.drop (j + 1)) := by
  refine ⟨fun hs => ?_, fun hs => ?_, fun h => ?_,
    fun h k rest hd => ?_, fun h j hj hne hup => ?_⟩
  · constructor <;>
      simp [reverse_string_sort_cu, reverse_string_sort_c, hs]
  · unfold reverse_string_sort_cu
    rw [if_neg (by omega)]
  · constructor <;>
      simp [string_sort_glc, reverse_string_sort_glc, h]
  · unfold string_sort_glc
    rw [if_neg (by omega), hd]
  · have hsome : findLastNonempty len l (l.length - 1) = some j := by
      apply findLastNonempty_eq_some
      · omega
      · exact hne
      · intro i hi1 hi2
        exact hup i hi1 (by omega)
    unfold reverse_string_sort_glc
    rw [if_neg (by omega), hsome]

/-- Witness for the amended C3: on a concrete above-threshold range the
four-argument overload equals the comparator-free engine result even
though the ascending comparator was supplied. -/
theorem C3_comp_amended_witness :
    reverse_string_sort_cu 2 lexLe' 0 [[1],[0],[2]] =
      detail_reverse_string_sort_u [[1],[0],[2]] :=
  (C3_comp_amended 2 0 lexLe' (fun (k : List ℕ) i => k.getD i 0)
    List.length lexLe' [[1],[0],[2]] ([] : List (List ℕ))).2.1
    (by decide)

/-- C5: For every range of at least threshold size passed to
`string_sort` with accessor functors, the maximal leading run of
zero-length keys is skipped and those positions are left unchanged; if
every key has length 0 the call returns with the whole range unchanged;
otherwise the engine is invoked on the remaining sub-range with the
first non-empty key's leading digit `getchar(*first, 0)`. -/
theorem C5_leading_empties_skipped {K : Type} (msz : ℕ)
    (ltK : K → K → Prop) [DecidableRel ltK] (g : K → ℕ → ℕ)
    (len : K → ℕ) (comp : K → K → Prop) [DecidableRel comp]
    (l : List K) (h : msz ≤ l.length) :
    ((∀ k ∈ l, len k = 0) →
      string_sort_gl msz ltK g len l = l ∧
      string_sort_glc msz g len comp l = l) ∧
    (∀ k rest, l.dropWhile (fun x => len x = 0) = k :: rest →
      string_sort_gl msz ltK g len l =
        l.takeWhile (fun x => len x = 0) ++
          detail_string_sort_gl g len (g k 0) (k :: rest) ∧
      string_sort_glc msz g len comp l =
        l.takeWhile (fun x => len x = 0) ++
          detail_string_sort_glc g len comp (g k 0) (k :: rest)) := by
  have hnlt : ¬ l.length < msz := by omega
  constructor
  · intro hall
    have hd : l.dropWhile (fun k => len k = 0) = [] :=
      List.dropWhile_eq_nil_iff.mpr (by
        intro x hx
        simpa using hall x hx)
    constructor
    · unfold string_sort_gl
      rw [if_neg hnlt, hd]
    · unfold string_sort_glc
      rw [if_neg hnlt, hd]
  · intro k rest hd
    constructor
    · unfold string_sort_gl
      rw [if_neg hnlt, hd]
    · unfold string_sort_glc
      rw [if_neg hnlt, hd]

/-- Witness for C5: a concrete range with one leading empty key; after
the skip the engine sorts the singleton remainder, so the sequence is
returned intact with the empty key still in front. -/
theorem C5_leading_empties_skipped_witness :
    string_sort_gl 1 lexLe' (fun (k : List ℕ) i => k.getD i 0)
      List.length [[],[5]] = [[],[5]] := by
  have h := (C5_leading_empties_skipped 1 lexLe'
    (fun (k : List ℕ) i => k.getD i 0) List.length lexLe'
    [[],[5]] (by decide)).2 [5] [] (by decide)
  rw [h.1]
  decide

/-- C10: For every range of at least threshold size in which every key
has length 0, the accessor-taking overloads of `string_sort` and
`reverse_string_sort` return with the sequence completely unchanged;
the getchar functor `g` is arbitrary in this statement, so the result
cannot depend on any `getchar` invocation. -/
theorem C10_all_empty_unchanged {K : Type} [Inhabited K] (msz : ℕ)
    (ltK : K → K → Prop) [DecidableRel ltK] (g : K → ℕ → ℕ)
    (len : K → ℕ) (comp : K → K → Prop) [DecidableRel comp]
    (l : List K) (h0 : 0 < msz) (h1 : msz ≤ l.length)
    (h2 : ∀ k ∈ l, len k = 0) :
    string_sort_gl msz ltK g len l = l ∧
    string_sort_glc msz g len comp l = l ∧
    reverse_string_sort_glc msz g len comp l = l := by
  have hnlt : ¬ l.length < msz := by omega
  have hd : l.dropWhile (fun k => len k = 0) = [] :=
    List.dropWhile_eq_nil_iff.mpr (by
      intro x hx
      simpa using h2 x hx)
  refine ⟨?_, ?_, ?_⟩
  · unfold string_sort_gl
    rw [if_neg hnlt, hd]
  · unfold string_sort_glc
    rw [if_neg hnlt, hd]
  · have hnone : findLastNonempty len l (l.length - 1) = none := by
      apply findLastNonempty_eq_none
      intro k hk
      have hk' : k < l.length := by omega
      rw [List.getD_eq_getElem l default hk']
      exact h2 _ (List.getElem_mem hk')
    unfold reverse_string_sort_glc
    rw [if_neg hnlt, hnone]

/-- Witness for C10: a two-element range of empty keys above a
threshold of two is returned unchanged by all three accessor
overloads. -/
theorem C10_all_empty_unchanged_witness :
    string_sort_gl 2 lexLe' (fun (k : List ℕ) i => k.getD i 0)
      List.length [[],[]] = [[],[]] ∧
    string_sort_glc 2 (fun (k : List ℕ) i => k.getD i 0) List.length
      lexLe' [[],[]] = [[],[]] ∧
    reverse_string_sort_glc 2 (fun (k : List ℕ) i => k.getD i 0)
      List.length lexLe' [[],[]] = [[],[]] :=
  C10_all_empty_unchanged 2 lexLe' (fun (k : List ℕ) i => k.getD i 0)
    List.length lexLe' [[],[]] (by decide) (by decide) (by decide)

/-- C4: For every range of at least threshold size passed to the
accessor-based `reverse_string_sort`, zero-length keys are skipped from
the tail of the range inward (the element at the largest index is
inspected first, so the engine receives the prefix ending at the last
key of nonzero length, the trailing empties staying in place), and if
the scan reaches the first element and it is also empty the call
returns with the range unchanged; the scan index never moves below the
range start. -/
theorem C4_reverse_tail_skip {K : Type} [Inhabited K] (msz : ℕ)
    (g : K → ℕ → ℕ) (len : K → ℕ) (comp : K → K → Prop)
    [DecidableRel comp] (l : List K) (h0 : 0 < msz)
    (h1 : msz ≤ l.length) :
    ((∀ k ∈ l, len k = 0) →
      reverse_string_sort_glc msz g len comp l = l) ∧
    (∀ j, j < l.length → len (l.getD j default) ≠ 0 →
      (∀ i, j < i → i < l.length → len (l.getD i default) = 0) →
      reverse_string_sort_glc msz g len comp l =
        detail_reverse_string_sort_glc g len comp
          (g (l.getD j default) 0) (l.take (j + 1)) ++
            l.drop (j + 1)) := by
  have hnlt : ¬ l.length < msz := by omega
  constructor
  · intro hall
    have hnone : findLastNonempty len l (l.length - 1) = none := by
      apply findLastNonempty_eq_none
      intro k hk
      have hk' : k < l.length := by omega
      rw [List.getD_eq_getElem l default hk']
      exact hall _ (List.getElem_mem hk')
    unfold reverse_string_sort_glc
    rw [if_neg hnlt, hnone]
  · intro j hj hne hup
    have hsome : findLastNonempty len l (l.length - 1) = some j := by
      apply findLastNonempty_eq_some
      · omega
      · exact hne
      · intro k hk1 hk2
        exact hup k hk1 (by omega)
    unfold reverse_string_sort_glc
    rw [if_neg hnlt, hsome]

/-- Witness for C4: a range whose single trailing key is empty; the
last element is inspected first, the engine receives the one-element
prefix, and the trailing empty key stays in place. -/
theorem C4_reverse_tail_skip_witness :
    reverse_string_sort_glc 1 (fun (k : List ℕ) i => k.getD i 0)
      List.length descLe' [[5],[]] = [[5],[]] := by
  have h := (C4_reverse_tail_skip 1 (fun (k : List ℕ) i => k.getD i 0)
    List.length descLe' [[5],[]] (by decide) (by decide)).2 0
    (by decide) (by decide)
    (by
      intro i hi1 hi2
      simp only [List.length_cons, List.length_nil] at hi2
      have hi : i = 1 := by omega
      subst hi
      decide)
  rw [h]
  decide

/-- C6: For every input range and every two keys `a` and `a ++ t`
(with `t` nonempty, so `a` is a strict prefix) found in the output of
an ascending `string_sort`, the occurrence of `a` is placed strictly
before the occurrence of its extension. -/
theorem C6_strict_prefix_law (msz u : ℕ) (a t : List ℕ) (ht : t ≠ [])
    (l : List (List ℕ)) (i j : ℕ)
    (hi : i < (string_sort_u msz u l).length)
    (hj : j < (string_sort_u msz u l).length)
    (ha : (string_sort_u msz u l).get ⟨i, hi⟩ = a)
    (hb : (string_sort_u msz u l).get ⟨j, hj⟩ = a ++ t) :
    i < j := by
  have he : string_sort_u msz u l = stdSort lexLe' l := by
    unfold string_sort_u detail_string_sort_u
    split <;> rfl
  have hs : List.Pairwise lexLe' (string_sort_u msz u l) := by
    rw [he]
    exact List.sorted_insertionSort lexLe' l
  have hlt : lexLt a (a ++ t) = true := lexLt_self_append a t ht
  rcases Nat.lt_trichotomy i j with h | h | h
  · exact h
  · exfalso
    have hfin : (⟨i, hi⟩ : Fin (string_sort_u msz u l).length) = ⟨j, hj⟩ :=
      Fin.ext h
    rw [hfin, hb] at ha
    have hlen := congrArg List.length ha
    simp only [List.length_append] at hlen
    have : t = [] := List.length_eq_zero.mp (by omega)
    exact ht this
  · exfalso
    have hrel := (List.pairwise_iff_getElem.mp hs) j i hj hi h
    rw [List.get_eq_getElem] at ha hb
    rw [ha, hb] at hrel
    unfold lexLe' at hrel
    rw [hlt] at hrel
    exact Bool.noConfusion hrel

/-- Witness for C6: in the ascending sort of `[[1,2],[1]]` the strict
prefix `[1]` (at position 0) lands strictly before its extension
`[1] ++ [2]` (at position 1). -/
theorem C6_strict_prefix_law_witness :
    ([2] : List ℕ) ≠ [] ∧ (0 : ℕ) < 1 :=
  ⟨by decide,
    C6_strict_prefix_law 1 0 [1] [2] (by decide) [[1, 2], [1]] 0 1
      (by decide) (by decide) (by decide) (by decide)⟩

/-- C7: For every input range with no fully-equal keys, sorting
ascending with `string_sort` and then reversing the whole sequence
yields exactly the sequence produced by `reverse_string_sort` (with the
descending digit comparator) directly. -/
theorem C7_reverse_consistency (msz : ℕ) (l : List (List ℕ))
    (hnd : l.Nodup) :
    (string_sort_default msz l).reverse =
      reverse_string_sort_c msz descLe' l := by
  have h1 : string_sort_default msz l = stdSort lexLe' l := by
    unfold string_sort_default string_sort_u detail_string_sort_u
    split <;> rfl
  have h2 : reverse_string_sort_c msz descLe' l = stdSort descLe' l := by
    unfold reverse_string_sort_c reverse_string_sort_cu
      detail_reverse_string_sort_u
    split <;> rfl
  rw [h1, h2]
  have hperm : (stdSort lexLe' l).reverse.Perm (stdSort descLe' l) :=
    ((List.reverse_perm _).trans
      (List.perm_insertionSort lexLe' l)).trans
      (List.perm_insertionSort descLe' l).symm
  have hs1 : List.Sorted descLe' (stdSort lexLe' l).reverse := by
    rw [List.Sorted, List.pairwise_reverse]
    exact List.sorted_insertionSort lexLe' l
  have hs2 : List.Sorted descLe' (stdSort descLe' l) :=
    List.sorted_insertionSort descLe' l
  exact List.eq_of_perm_of_sorted hperm hs1 hs2

/-- Witness for C7 on the duplicate-free range `[[1],[0]]`. -/
theorem C7_reverse_consistency_witness :
    (string_sort_default 1 [[1],[0]]).reverse =
      reverse_string_sort_c 1 descLe' [[1],[0]] :=
  C7_reverse_consistency 1 [[1],[0]] (by decide)
